import Mathlib

/-!
Verification of the stock-reconstruction core of `create_stock_csv.py`.

The embedding models the per-(day, station) group as a list of
`(hour, net_demand)` records (hours in `ℤ`, demands in `ℚ`), the
clamping simulator `calculate_stock_for_initial_value`, and the
exhaustive optimizer `find_optimal_initial_stock`.  Python's
`float(inf)` sentinel for the incumbent minimum is modelled by
`Option ℚ` with `none` standing for positive infinity, and a missing
trajectory (`best_stock_by_hour = None`) by `Option` as well.
-/

namespace BlueBike

/-- Python's `int()` applied to a rational: truncation toward zero. -/
def pyInt (q : ℚ) : ℤ := if q < 0 then -⌊-q⌋ else ⌊q⌋

/-- One input record of a (day, station) group: `(hour, net_demand)`. -/
abbrev Record := ℤ × ℚ

/-- The lookup `df_day_station[df_day_station[hour_col] == hour].iloc[0]`:
the net demand of the first record carrying the given hour (0 if absent,
which never happens for hours drawn from the group itself). -/
def demandAt (records : List Record) (h : ℤ) : ℚ :=
  ((records.find? (fun r => r.1 == h)).map Prod.snd).getD 0

/-- The hour list `sorted(unique(hours))`: the distinct hours of the
group, in ascending order (`unique` keeps first occurrences, `sorted`
reorders ascending). -/
def hoursOf (records : List Record) : List ℤ :=
  List.insertionSort (· ≤ ·) (records.map Prod.fst).dedup

/-- One hour's transition: from the current stock and the hour's demand,
the new (clamped) stock and the truncation amount added this hour.
Mirrors lines 62-70 of `create_stock_csv.py`. -/
def stockStep (capacity current d : ℚ) : ℚ × ℚ :=
  let new_stock := current + d
  if new_stock < 0 then (0, -new_stock)
  else if new_stock > capacity then (capacity, new_stock - capacity)
  else (new_stock, 0)

/-- The simulator loop over a list of hours: returns the association list
`stock_by_hour` (hour, stock at start of hour) and the accumulated
truncations. -/
def calcAux (records : List Record) (capacity : ℚ) :
    List ℤ → ℚ → List (ℤ × ℚ) × ℚ
  | [], _ => ([], 0)
  | h :: hs, current =>
    let s := stockStep capacity current (demandAt records h)
    let rest := calcAux records capacity hs s.1
    ((h, current) :: rest.1, s.2 + rest.2)

/-- The simulator `calculate_stock_for_initial_value(df_day_station,
initial_stock, capacity)`: the `stock_by_hour` dict (as an association list in insertion
order, i.e. ascending hour) and the total `truncations`. -/
def calculate_stock_for_initial_value
    (records : List Record) (initial_stock capacity : ℚ) :
    List (ℤ × ℚ) × ℚ :=
  calcAux records capacity (hoursOf records) initial_stock

/-- The optimizer's result triple: `best_initial_stock`,
`best_stock_by_hour` (`none` = Python `None`) and `min_truncations`
(`none` = Python `float(inf)`). -/
abbrev OptResult := ℤ × Option (List (ℤ × ℚ)) × Option ℚ

/-- The optimizer's candidate loop (lines 94-102): try each candidate in
order, replacing the incumbent only on strictly smaller truncations
(every finite value is strictly below the `float(inf)` start,
modelled by `none`). -/
def scanCandidates (records : List Record) (capacity : ℚ) :
    List ℤ → OptResult → OptResult
  | [], acc => acc
  | c :: cs, acc =>
    let res := calculate_stock_for_initial_value records (c : ℚ) capacity
    let better : Bool :=
      match acc.2.2 with
      | none => true
      | some m => decide (res.2 < m)
    scanCandidates records capacity cs
      (if better then (c, some res.1, some res.2) else acc)

/-- The scan range `range(int(capacity) + 1)` as a list of integers. -/
def candidateList (capacity : ℚ) : List ℤ :=
  (List.range (pyInt capacity + 1).toNat).map Int.ofNat

/-- The optimizer `find_optimal_initial_stock(df_day_station, capacity)`. -/
def find_optimal_initial_stock (records : List Record) (capacity : ℚ) :
    OptResult :=
  scanCandidates records capacity (candidateList capacity) (0, none, none)

/-- One output row appended by `create_stock_csv` for a processed group:
hour, stock, the group's winning initial stock, and the group's
`total_truncations` value. -/
structure OutRow where
  hour : ℤ
  stock : ℚ
  initial_stock : ℤ
  total_truncations : Option ℚ
deriving DecidableEq, Repr

/-- The Python exception raised when `stock_by_hour` is `None` and the
caller iterates `stock_by_hour.items()`. -/
def attrErrorMsg : String :=
  "AttributeError: NoneType object has no attribute items"

/-- The body of `create_stock_csv`'s inner loop (lines 125-147) for one
(day, station) group: an empty group is skipped, a group without a known
capacity is skipped, otherwise the optimizer runs and one row per
trajectory entry is emitted; a `None` trajectory makes the per-hour
iteration raise. -/
def groupContribution (group : List Record) (capacity? : Option ℚ) :
    Except String (List OutRow) :=
  if group.isEmpty then Except.ok []
  else
    match capacity? with
    | none => Except.ok []
    | some capacity =>
      let r := find_optimal_initial_stock group capacity
      match r.2.1 with
      | none => Except.error attrErrorMsg
      | some sbh =>
        Except.ok (sbh.map (fun p => ⟨p.1, p.2, r.1, r.2.2⟩))

/-- The unclamped trajectory: the value `initial + cumulative demand`
after each hour, propagated WITHOUT any clamping between hours. -/
def unclampedVals (records : List Record) :
    List ℤ → ℚ → List ℚ
  | [], _ => []
  | h :: hs, current =>
    let u := current + demandAt records h
    u :: unclampedVals records hs u

/-- The spec's cross-check formula for `total_truncation` (§8 of the
spec, claim C3): sum over hours of `max 0 (-u) + max 0 (u - capacity)`
where `u` is the UNCLAMPED propagated stock. -/
def spec_total_truncation
    (records : List Record) (initial_stock capacity : ℚ) : ℚ :=
  ((unclampedVals records (hoursOf records) initial_stock).map
    (fun u => max 0 (-u) + max 0 (u - capacity))).sum

/-- Clamp a value into `[0, capacity]` the way the Python code does. -/
def pyClamp (capacity u : ℚ) : ℚ :=
  if u < 0 then 0 else if u > capacity then capacity else u

/-- The per-hour `max`-formula for the truncation cost, with the clamped
value propagated between hours: the amended form of the spec's
cross-check. -/
def clampedTruncSum (records : List Record) (capacity : ℚ) :
    List ℤ → ℚ → ℚ
  | [], _ => 0
  | h :: hs, current =>
    let u := current + demandAt records h
    (max 0 (-u) + max 0 (u - capacity))
      + clampedTruncSum records capacity hs (pyClamp capacity u)

/-- The truncation cost of one integer candidate initial stock. -/
def candCost (records : List Record) (capacity : ℚ) (c : ℤ) : ℚ :=
  (calculate_stock_for_initial_value records (c : ℚ) capacity).2

/-- The trajectory of one integer candidate initial stock. -/
def candTraj (records : List Record) (capacity : ℚ) (c : ℤ) : List (ℤ × ℚ) :=
  (calculate_stock_for_initial_value records (c : ℚ) capacity).1

/-- Keep only the first record of each hour, preserving order: the
records whose demand the simulator can ever read. -/
def firstPerHour : List Record → List Record
  | [] => []
  | r :: rs => r :: firstPerHour (rs.filter (fun s => s.1 ≠ r.1))
termination_by l => l.length
decreasing_by
  simp only [List.length_cons]
  exact Nat.lt_succ_of_le (List.length_filter_le _ _)

/-! ### Basic facts about one hour's transition -/

theorem stockStep_snd_nonneg (capacity current d : ℚ) :
    0 ≤ (stockStep capacity current d).2 := by
  simp only [stockStep]
  split_ifs with h1 h2 <;> simp <;> linarith

theorem stockStep_fst_bounds (capacity current d : ℚ) (hc : 0 ≤ capacity) :
    0 ≤ (stockStep capacity current d).1 ∧ (stockStep capacity current d).1 ≤ capacity := by
  simp only [stockStep]
  split_ifs with h1 h2 <;> constructor <;> simp <;> linarith

theorem stockStep_fst_eq_pyClamp (capacity current d : ℚ) :
    (stockStep capacity current d).1 = pyClamp capacity (current + d) := by
  simp only [stockStep, pyClamp]
  split_ifs <;> rfl

theorem stockStep_snd_eq_zero_iff (capacity current d : ℚ) :
    (stockStep capacity current d).2 = 0 ↔
      0 ≤ current + d ∧ current + d ≤ capacity := by
  simp only [stockStep]
  split_ifs with h1 h2 <;> constructor <;> intro h
  · exfalso; simp at h; linarith
  · exfalso; linarith [h.1]
  · exfalso; simp at h; linarith
  · exfalso; linarith [h.2]
  · exact ⟨by linarith, by linarith⟩
  · rfl

theorem stockStep_fst_of_no_trunc (capacity current d : ℚ)
    (h : (stockStep capacity current d).2 = 0) :
    (stockStep capacity current d).1 = current + d := by
  rcases (stockStep_snd_eq_zero_iff capacity current d).1 h with ⟨h1, h2⟩
  simp only [stockStep]
  split_ifs <;> simp <;> linarith

theorem stockStep_snd_max (capacity current d : ℚ) (hc : 0 ≤ capacity) :
    (stockStep capacity current d).2 =
      max 0 (-(current + d)) + max 0 ((current + d) - capacity) := by
  simp only [stockStep]
  split_ifs with h1 h2
  · rw [max_eq_right (by linarith), max_eq_left (by linarith)]; ring
  · rw [max_eq_left (by linarith), max_eq_right (by linarith)]; ring
  · rw [max_eq_left (by linarith), max_eq_left (by linarith)]; ring

/-! ### Facts about the simulator loop -/

theorem calcAux_map_fst (records : List Record) (capacity : ℚ) :
    ∀ (hs : List ℤ) (current : ℚ),
      ((calcAux records capacity hs current).1).map Prod.fst = hs
  | [], _ => rfl
  | h :: hs, current => by
    simp only [calcAux, List.map_cons, List.cons.injEq, true_and]
    exact calcAux_map_fst records capacity hs _

theorem calcAux_snd_nonneg (records : List Record) (capacity : ℚ) :
    ∀ (hs : List ℤ) (current : ℚ), 0 ≤ (calcAux records capacity hs current).2
  | [], _ => le_refl 0
  | h :: hs, current => by
    have h1 := stockStep_snd_nonneg capacity current (demandAt records h)
    have h2 := calcAux_snd_nonneg records capacity hs
      (stockStep capacity current (demandAt records h)).1
    simp only [calcAux]
    linarith

theorem calcAux_stock_bounds (records : List Record) (capacity : ℚ) :
    ∀ (hs : List ℤ) (current : ℚ), 0 ≤ current → current ≤ capacity →
      ∀ x ∈ ((calcAux records capacity hs current).1).map Prod.snd,
        0 ≤ x ∧ x ≤ capacity
  | [], _, _, _, x, hx => by simp [calcAux] at hx
  | h :: hs, current, hcur0, hcurc, x, hx => by
    have hc : 0 ≤ capacity := le_trans hcur0 hcurc
    have hb := stockStep_fst_bounds capacity current (demandAt records h) hc
    simp only [calcAux, List.map_cons, List.mem_cons] at hx
    rcases hx with hx | hx
    · exact hx ▸ ⟨hcur0, hcurc⟩
    · exact calcAux_stock_bounds records capacity hs _ hb.1 hb.2 x hx

theorem calcAux_snd_eq_zero_iff (records : List Record) (capacity : ℚ) :
    ∀ (hs : List ℤ) (current : ℚ),
      (calcAux records capacity hs current).2 = 0 ↔
        ∀ u ∈ unclampedVals records hs current, 0 ≤ u ∧ u ≤ capacity
  | [], _ => by simp [calcAux, unclampedVals]
  | h :: hs, current => by
    have hs1 := stockStep_snd_nonneg capacity current (demandAt records h)
    have hs2 := calcAux_snd_nonneg records capacity hs
      (stockStep capacity current (demandAt records h)).1
    simp only [calcAux, unclampedVals, List.mem_cons]
    rw [add_eq_zero_iff_of_nonneg hs1 hs2]
    constructor
    · rintro ⟨hz1, hz2⟩ u hu
      have hmem := (stockStep_snd_eq_zero_iff capacity current (demandAt records h)).1 hz1
      rcases hu with hu | hu
      · exact hu ▸ hmem
      · have hfst := stockStep_fst_of_no_trunc capacity current (demandAt records h) hz1
        rw [hfst] at hz2
        exact (calcAux_snd_eq_zero_iff records capacity hs
          (current + demandAt records h)).1 hz2 u hu
    · intro hall
      have hmem := hall (current + demandAt records h) (Or.inl rfl)
      have hz1 : (stockStep capacity current (demandAt records h)).2 = 0 :=
        (stockStep_snd_eq_zero_iff capacity current (demandAt records h)).2 hmem
      have hfst := stockStep_fst_of_no_trunc capacity current (demandAt records h) hz1
      refine ⟨hz1, ?_⟩
      rw [hfst]
      exact (calcAux_snd_eq_zero_iff records capacity hs
        (current + demandAt records h)).2 (fun u hu => hall u (Or.inr hu))

theorem calcAux_eq_clampedTruncSum (records : List Record) (capacity : ℚ)
    (hc : 0 ≤ capacity) :
    ∀ (hs : List ℤ) (current : ℚ),
      (calcAux records capacity hs current).2 =
        clampedTruncSum records capacity hs current
  | [], _ => rfl
  | h :: hs, current => by
    simp only [calcAux, clampedTruncSum]
    rw [stockStep_snd_max capacity current (demandAt records h) hc,
      stockStep_fst_eq_pyClamp,
      calcAux_eq_clampedTruncSum records capacity hc hs _]

theorem calcAux_congr (records₁ records₂ : List Record) (capacity : ℚ)
    (hd : ∀ h, demandAt records₁ h = demandAt records₂ h) :
    ∀ (hs : List ℤ) (current : ℚ),
      calcAux records₁ capacity hs current = calcAux records₂ capacity hs current
  | [], _ => rfl
  | h :: hs, current => by
    simp only [calcAux, hd h]
    rw [calcAux_congr records₁ records₂ capacity hd hs _]

/-! ### Facts about the hour list -/

theorem hoursOf_nodup (records : List Record) : (hoursOf records).Nodup :=
  (List.perm_insertionSort _ _).nodup_iff.2 (List.nodup_dedup _)

theorem mem_hoursOf (records : List Record) (h : ℤ) :
    h ∈ hoursOf records ↔ h ∈ records.map Prod.fst := by
  rw [hoursOf, List.mem_insertionSort, List.mem_dedup]

theorem hoursOf_sorted_le (records : List Record) :
    List.Sorted (· ≤ ·) (hoursOf records) :=
  List.sorted_insertionSort _ _

theorem hoursOf_sorted_lt (records : List Record) :
    List.Sorted (· < ·) (hoursOf records) :=
  (hoursOf_sorted_le records).lt_of_le (hoursOf_nodup records)

/-! ### Facts about the candidate scan -/

theorem scanCandidates_cons_some (records : List Record) (capacity : ℚ)
    (c : ℤ) (cs : List ℤ) (b : ℤ) (tb : List (ℤ × ℚ)) (mb : ℚ) :
    scanCandidates records capacity (c :: cs) (b, some tb, some mb) =
      scanCandidates records capacity cs
        (if candCost records capacity c < mb
          then (c, some (candTraj records capacity c), some (candCost records capacity c))
          else (b, some tb, some mb)) := by
  simp only [scanCandidates, candCost, candTraj, decide_eq_true_eq]

theorem scanCandidates_cons_none (records : List Record) (capacity : ℚ)
    (c : ℤ) (cs : List ℤ) (b : ℤ) :
    scanCandidates records capacity (c :: cs) (b, none, none) =
      scanCandidates records capacity cs
        (c, some (candTraj records capacity c), some (candCost records capacity c)) :=
  rfl

/-- The invariant of the optimizer's scan: starting from an incumbent
whose stored trajectory and cost are its own, the scan returns the first
strict minimizer among the incumbent and the remaining candidates. -/
theorem scanCandidates_inv (records : List Record) (capacity : ℚ) :
    ∀ (cs : List ℤ) (b : ℤ),
      List.Sorted (· < ·) cs → (∀ c ∈ cs, b < c) →
      ∃ best : ℤ,
        scanCandidates records capacity cs
          (b, some (candTraj records capacity b), some (candCost records capacity b))
          = (best, some (candTraj records capacity best),
              some (candCost records capacity best)) ∧
        (best = b ∨ best ∈ cs) ∧
        candCost records capacity best ≤ candCost records capacity b ∧
        (∀ c ∈ cs, candCost records capacity best ≤ candCost records capacity c) ∧
        (best ≠ b → candCost records capacity best < candCost records capacity b) ∧
        (∀ c ∈ cs, c < best →
          candCost records capacity best < candCost records capacity c) := by
  intro cs
  induction cs with
  | nil =>
    intro b _ _
    exact ⟨b, rfl, Or.inl rfl, le_refl _, by simp, fun hne => absurd rfl hne, by simp⟩
  | cons c cs ih =>
    intro b hsort hgt
    rw [scanCandidates_cons_some]
    by_cases hlt : candCost records capacity c < candCost records capacity b
    · rw [if_pos hlt]
      obtain ⟨best, heq, hmem, hle, hall, hstr, htie⟩ :=
        ih c hsort.of_cons (List.rel_of_sorted_cons hsort)
      refine ⟨best, heq, ?_, le_trans hle (le_of_lt hlt), ?_, ?_, ?_⟩
      · rcases hmem with hmem | hmem
        · exact Or.inr (hmem ▸ List.mem_cons_self c cs)
        · exact Or.inr (List.mem_cons_of_mem c hmem)
      · intro x hx
        rcases List.mem_cons.1 hx with rfl | hx
        · exact hle
        · exact hall x hx
      · intro _
        exact lt_of_le_of_lt hle hlt
      · intro x hx hxlt
        rcases List.mem_cons.1 hx with rfl | hx
        · exact hstr (ne_of_gt hxlt)
        · exact htie x hx hxlt
    · rw [if_neg hlt]
      obtain ⟨best, heq, hmem, hle, hall, hstr, htie⟩ :=
        ih b hsort.of_cons (fun x hx => hgt x (List.mem_cons_of_mem c hx))
      refine ⟨best, heq, ?_, hle, ?_, hstr, ?_⟩
      · rcases hmem with hmem | hmem
        · exact Or.inl hmem
        · exact Or.inr (List.mem_cons_of_mem c hmem)
      · intro x hx
        rcases List.mem_cons.1 hx with rfl | hx
        · exact le_trans hle (not_lt.1 hlt)
        · exact hall x hx
      · intro x hx hxlt
        rcases List.mem_cons.1 hx with rfl | hx
        · have hbne : best ≠ b := by
            intro hbb
            exact absurd (hbb ▸ hxlt) (not_lt.2 (le_of_lt (hgt x (List.mem_cons_self x cs))))
          exact lt_of_lt_of_le (hstr hbne) (not_lt.1 hlt)
        · exact htie x hx hxlt

/-! ### Facts about the candidate list -/

theorem pyInt_of_nonneg (q : ℚ) (hq : 0 ≤ q) : pyInt q = ⌊q⌋ := by
  rw [pyInt, if_neg (not_lt.2 hq)]

theorem pyInt_nonneg (q : ℚ) (hq : 0 ≤ q) : 0 ≤ pyInt q := by
  rw [pyInt_of_nonneg q hq]
  exact Int.floor_nonneg.2 hq

theorem mem_candidateList (capacity : ℚ) (hc : 0 ≤ capacity) (x : ℤ) :
    x ∈ candidateList capacity ↔ 0 ≤ x ∧ x ≤ pyInt capacity := by
  have h0 : 0 ≤ pyInt capacity := pyInt_nonneg capacity hc
  simp only [candidateList, List.mem_map, List.mem_range]
  constructor
  · rintro ⟨k, hk, rfl⟩
    constructor
    · exact Int.ofNat_nonneg k
    · show (k : ℤ) ≤ pyInt capacity
      omega
  · rintro ⟨hx0, hx1⟩
    refine ⟨x.toNat, by omega, ?_⟩
    show ((x.toNat : ℕ) : ℤ) = x
    omega

theorem candidateList_sorted (capacity : ℚ) :
    List.Sorted (· < ·) (candidateList capacity) :=
  (List.pairwise_lt_range _).map Int.ofNat (fun _ _ h => Int.ofNat_lt.2 h)

theorem candidateList_head (capacity : ℚ) (hc : 0 ≤ capacity) :
    ∃ cs, candidateList capacity = 0 :: cs := by
  have h0 : 0 ≤ pyInt capacity := pyInt_nonneg capacity hc
  have h1 : (pyInt capacity + 1).toNat = (pyInt capacity).toNat + 1 := by omega
  rw [candidateList, h1, List.range_succ_eq_map, List.map_cons]
  exact ⟨_, rfl⟩

/-- The master specification of `find_optimal_initial_stock` for a valid
(non-negative) capacity. -/
theorem find_optimal_spec (records : List Record) (capacity : ℚ) (hc : 0 ≤ capacity) :
    ∃ best : ℤ,
      find_optimal_initial_stock records capacity =
        (best, some (candTraj records capacity best),
          some (candCost records capacity best)) ∧
      0 ≤ best ∧ best ≤ pyInt capacity ∧
      (∀ c : ℤ, 0 ≤ c → c ≤ pyInt capacity →
        candCost records capacity best ≤ candCost records capacity c) ∧
      (∀ c : ℤ, 0 ≤ c → c < best →
        candCost records capacity best < candCost records capacity c) := by
  obtain ⟨cs, hcs⟩ := candidateList_head capacity hc
  have hsorted := candidateList_sorted capacity
  rw [hcs] at hsorted
  obtain ⟨best, heq, hmem, hle, hall, hstr, htie⟩ :=
    scanCandidates_inv records capacity cs 0 hsorted.of_cons
      (List.rel_of_sorted_cons hsorted)
  have hmemCand : ∀ x : ℤ, x ∈ cs → x ∈ candidateList capacity := by
    intro x hx
    rw [hcs]
    exact List.mem_cons_of_mem 0 hx
  refine ⟨best, ?_, ?_, ?_, ?_, ?_⟩
  · rw [find_optimal_initial_stock, hcs, scanCandidates_cons_none]
    exact heq
  · rcases hmem with rfl | hmem
    · exact le_refl 0
    · exact ((mem_candidateList capacity hc best).1 (hmemCand best hmem)).1
  · rcases hmem with rfl | hmem
    · exact pyInt_nonneg capacity hc
    · exact ((mem_candidateList capacity hc best).1 (hmemCand best hmem)).2
  · intro c hc0 hc1
    have hcmem : c ∈ candidateList capacity :=
      (mem_candidateList capacity hc c).2 ⟨hc0, hc1⟩
    rw [hcs, List.mem_cons] at hcmem
    rcases hcmem with rfl | hcmem
    · exact hle
    · exact hall c hcmem
  · intro c hc0 hclt
    have hc1 : c ≤ pyInt capacity := by
      rcases hmem with rfl | hmem
      · omega
      · have := ((mem_candidateList capacity hc best).1 (hmemCand best hmem)).2
        omega
    have hcmem : c ∈ candidateList capacity :=
      (mem_candidateList capacity hc c).2 ⟨hc0, hc1⟩
    rw [hcs, List.mem_cons] at hcmem
    rcases hcmem with rfl | hcmem
    · exact hstr (by omega)
    · exact htie c hcmem hclt

/-! ### Claim theorems -/

/-- Claim C1: for every non-empty demand sequence and non-negative
capacity, `find_optimal_initial_stock` returns the smallest integer
candidate in `[0, ⌊capacity⌋]` with minimal simulated truncation cost
(strictly lower cost than every smaller candidate), its `min_truncation`
is the cost of the returned candidate and is at most the cost of every
tested candidate, and `best_stock_by_hour` is exactly the trajectory
`calculate_stock_for_initial_value` produces for the returned
candidate. -/
theorem claim_C1 (records : List Record) (capacity : ℚ)
    (hne : records ≠ []) (hc : 0 ≤ capacity) :
    (find_optimal_initial_stock records capacity).2.1
      = some (calculate_stock_for_initial_value records
          (((find_optimal_initial_stock records capacity).1 : ℤ) : ℚ) capacity).1 ∧
    (find_optimal_initial_stock records capacity).2.2
      = some (calculate_stock_for_initial_value records
          (((find_optimal_initial_stock records capacity).1 : ℤ) : ℚ) capacity).2 ∧
    0 ≤ (find_optimal_initial_stock records capacity).1 ∧
    (find_optimal_initial_stock records capacity).1 ≤ ⌊capacity⌋ ∧
    (∀ c : ℤ, 0 ≤ c → c ≤ ⌊capacity⌋ →
      (calculate_stock_for_initial_value records
        (((find_optimal_initial_stock records capacity).1 : ℤ) : ℚ) capacity).2
        ≤ (calculate_stock_for_initial_value records (c : ℚ) capacity).2) ∧
    (∀ c : ℤ, 0 ≤ c → c < (find_optimal_initial_stock records capacity).1 →
      (calculate_stock_for_initial_value records
        (((find_optimal_initial_stock records capacity).1 : ℤ) : ℚ) capacity).2
        < (calculate_stock_for_initial_value records (c : ℚ) capacity).2) := by
  obtain ⟨best, heq, hb0, hb1, hall, htie⟩ := find_optimal_spec records capacity hc
  rw [← pyInt_of_nonneg capacity hc, heq]
  exact ⟨rfl, rfl, hb0, hb1, hall, htie⟩

theorem claim_C1_w :
    (find_optimal_initial_stock [((0:ℤ), (5:ℚ))] 3).2.2
      = some (calculate_stock_for_initial_value [((0:ℤ), (5:ℚ))]
          (((find_optimal_initial_stock [((0:ℤ), (5:ℚ))] 3).1 : ℤ) : ℚ) 3).2 ∧
    0 ≤ (find_optimal_initial_stock [((0:ℤ), (5:ℚ))] 3).1 :=
  ⟨(claim_C1 [((0:ℤ), (5:ℚ))] 3 (List.cons_ne_nil _ _) (by norm_num)).2.1,
   (claim_C1 [((0:ℤ), (5:ℚ))] 3 (List.cons_ne_nil _ _) (by norm_num)).2.2.1⟩

/-- Claim C2: for every candidate initial stock in `[0, capacity]` and
every demand sequence, every value recorded in the returned
`stock_by_hour` trajectory lies in `[0, capacity]`, and the first
recorded value is the initial stock unmodified. -/
theorem claim_C2 (records : List Record) (initial capacity : ℚ)
    (h0 : 0 ≤ initial) (h1 : initial ≤ capacity) :
    (∀ x ∈ ((calculate_stock_for_initial_value records initial capacity).1).map Prod.snd,
      0 ≤ x ∧ x ≤ capacity) ∧
    (∀ p ∈ ((calculate_stock_for_initial_value records initial capacity).1).head?,
      p.2 = initial) := by
  constructor
  · exact fun x hx =>
      calcAux_stock_bounds records capacity (hoursOf records) initial h0 h1 x hx
  · rw [calculate_stock_for_initial_value]
    cases hoursOf records with
    | nil => intro p hp; simp [calcAux] at hp
    | cons a as =>
      intro p hp
      simp only [calcAux, List.head?_cons, Option.mem_def, Option.some.injEq] at hp
      rw [← hp]

theorem claim_C2_w :
    0 ≤ (10 : ℚ) ∧ (10 : ℚ) ≤ 10 :=
  (claim_C2 [((0:ℤ), (5:ℚ)), (1, -3), (2, 8), (3, -2)] 2 10
    (by norm_num) (by norm_num)).1 10
    (by norm_num [calculate_stock_for_initial_value, hoursOf, calcAux, demandAt, stockStep])

/-- Claim C4 counterexample: with the single-hour demand `-5/2` and the
non-integer capacity `5/2`, the optimizer's `min_truncation` is `1/2`
(the best integer candidate is 2), while initial stock = capacity
(= `5/2`) yields truncation 0; so `min_truncation` is NOT below the cost
of the un-truncated capacity candidate, which the code never tests. -/
theorem claim_C4_cex :
    (find_optimal_initial_stock [((0:ℤ), (-5/2 : ℚ))] (5/2)).2.2 = some (1/2) ∧
    (calculate_stock_for_initial_value [((0:ℤ), (-5/2 : ℚ))] (5/2) (5/2)).2 = 0 ∧
    ¬((1 : ℚ)/2 ≤ 0) := by
  refine ⟨?_, ?_, by norm_num⟩
  · norm_num [find_optimal_initial_stock, candidateList, pyInt, scanCandidates,
      calculate_stock_for_initial_value, hoursOf, calcAux, demandAt, stockStep,
      List.range_succ]
  · norm_num [calculate_stock_for_initial_value, hoursOf, calcAux, demandAt, stockStep]

/-- Claim C4 (amended): the returned `min_truncation` equals the cost of
the returned candidate, which is at most the truncation cost of
initial stock 0 and at most the cost of initial stock `⌊capacity⌋`
(the largest candidate the scan actually tests; the un-truncated value
`capacity` itself is only a candidate when capacity is an integer). -/
theorem claim_C4_amended (records : List Record) (capacity : ℚ)
    (hne : records ≠ []) (hc : 0 ≤ capacity) :
    (find_optimal_initial_stock records capacity).2.2
      = some (calculate_stock_for_initial_value records
          (((find_optimal_initial_stock records capacity).1 : ℤ) : ℚ) capacity).2 ∧
    (calculate_stock_for_initial_value records
        (((find_optimal_initial_stock records capacity).1 : ℤ) : ℚ) capacity).2
      ≤ (calculate_stock_for_initial_value records ((0 : ℤ) : ℚ) capacity).2 ∧
    (calculate_stock_for_initial_value records
        (((find_optimal_initial_stock records capacity).1 : ℤ) : ℚ) capacity).2
      ≤ (calculate_stock_for_initial_value records ((⌊capacity⌋ : ℤ) : ℚ) capacity).2 := by
  obtain ⟨best, heq, hb0, hb1, hall, htie⟩ := find_optimal_spec records capacity hc
  rw [← pyInt_of_nonneg capacity hc, heq]
  exact ⟨rfl, hall 0 (le_refl 0) (pyInt_nonneg capacity hc),
    hall (pyInt capacity) (pyInt_nonneg capacity hc) (le_refl _)⟩

theorem claim_C4_w :
    (find_optimal_initial_stock [((0:ℤ), (1:ℚ))] 2).2.2
      = some (calculate_stock_for_initial_value [((0:ℤ), (1:ℚ))]
          (((find_optimal_initial_stock [((0:ℤ), (1:ℚ))] 2).1 : ℤ) : ℚ) 2).2 ∧
    (calculate_stock_for_initial_value [((0:ℤ), (1:ℚ))]
        (((find_optimal_initial_stock [((0:ℤ), (1:ℚ))] 2).1 : ℤ) : ℚ) 2).2
      ≤ (calculate_stock_for_initial_value [((0:ℤ), (1:ℚ))] ((0 : ℤ) : ℚ) 2).2 ∧
    (calculate_stock_for_initial_value [((0:ℤ), (1:ℚ))]
        (((find_optimal_initial_stock [((0:ℤ), (1:ℚ))] 2).1 : ℤ) : ℚ) 2).2
      ≤ (calculate_stock_for_initial_value [((0:ℤ), (1:ℚ))] ((⌊(2:ℚ)⌋ : ℤ) : ℚ) 2).2 :=
  claim_C4_amended [((0:ℤ), (1:ℚ))] 2 (List.cons_ne_nil _ _) (by norm_num)

/-- Claim C5: for every initial stock in `[0, capacity]`, the returned
`total_truncation` is non-negative and is zero exactly when the
unclamped trajectory never leaves `[0, capacity]`; the trajectory has
exactly one entry per distinct input hour. -/
theorem claim_C5 (records : List Record) (initial capacity : ℚ)
    (h0 : 0 ≤ initial) (h1 : initial ≤ capacity) :
    0 ≤ (calculate_stock_for_initial_value records initial capacity).2 ∧
    ((calculate_stock_for_initial_value records initial capacity).2 = 0 ↔
      ∀ u ∈ unclampedVals records (hoursOf records) initial, 0 ≤ u ∧ u ≤ capacity) ∧
    ((calculate_stock_for_initial_value records initial capacity).1).map Prod.fst
      = hoursOf records ∧
    (hoursOf records).Nodup ∧
    (∀ h : ℤ, h ∈ hoursOf records ↔ h ∈ records.map Prod.fst) :=
  ⟨calcAux_snd_nonneg records capacity (hoursOf records) initial,
   calcAux_snd_eq_zero_iff records capacity (hoursOf records) initial,
   calcAux_map_fst records capacity (hoursOf records) initial,
   hoursOf_nodup records,
   fun h => mem_hoursOf records h⟩

theorem claim_C5_w :
    0 ≤ (calculate_stock_for_initial_value [((0:ℤ), (5:ℚ)), (1, -3)] 0 10).2 ∧
    ((calculate_stock_for_initial_value [((0:ℤ), (5:ℚ)), (1, -3)] 0 10).1).map Prod.fst
      = hoursOf [((0:ℤ), (5:ℚ)), (1, -3)] :=
  ⟨(claim_C5 [((0:ℤ), (5:ℚ)), (1, -3)] 0 10 (by norm_num) (by norm_num)).1,
   (claim_C5 [((0:ℤ), (5:ℚ)), (1, -3)] 0 10 (by norm_num) (by norm_num)).2.2.1⟩

/-- Claim C6 counterexample: the empty demand sequence sums to 0 and
simulating it from initial stock 0 with capacity -1 produces no clamping
(truncation 0), yet the optimizer's scan range `range(int(-1) + 1)` is
empty, so `min_truncation` stays at infinity (`none`), not 0. -/
theorem claim_C6_cex :
    (([] : List Record).map Prod.snd).sum = 0 ∧
    (calculate_stock_for_initial_value ([] : List Record) 0 (-1)).2 = 0 ∧
    (find_optimal_initial_stock ([] : List Record) (-1)).2.2 = none ∧
    (find_optimal_initial_stock ([] : List Record) (-1)).2.2 ≠ some 0 := by
  have hnone : (find_optimal_initial_stock ([] : List Record) (-1)).2.2 = none := by
    norm_num [find_optimal_initial_stock, candidateList, pyInt, scanCandidates]
  exact ⟨rfl, rfl, hnone, by rw [hnone]; exact fun h => Option.noConfusion h⟩

/-- Claim C6 (amended): for every demand sequence summing to 0 and every
NON-NEGATIVE capacity such that simulating from initial stock 0 never
triggers clamping (truncation 0), the optimizer returns
`min_truncation = 0` and `best_initial_stock = 0`. -/
theorem claim_C6_amended (records : List Record) (capacity : ℚ)
    (hsum : (records.map Prod.snd).sum = 0)
    (hc : 0 ≤ capacity)
    (hclamp : (calculate_stock_for_initial_value records ((0:ℤ) : ℚ) capacity).2 = 0) :
    (find_optimal_initial_stock records capacity).1 = 0 ∧
    (find_optimal_initial_stock records capacity).2.2 = some 0 := by
  obtain ⟨best, heq, hb0, hb1, hall, htie⟩ := find_optimal_spec records capacity hc
  have hc0 : candCost records capacity 0 = 0 := hclamp
  have hnn : 0 ≤ candCost records capacity best :=
    calcAux_snd_nonneg records capacity (hoursOf records) _
  have hzero : candCost records capacity best = 0 := by
    have hle := hall 0 (le_refl 0) (pyInt_nonneg capacity hc)
    rw [hc0] at hle
    exact le_antisymm hle hnn
  have hbest0 : best = 0 := by
    by_contra hne
    have h0lt : 0 < best := lt_of_le_of_ne hb0 (Ne.symm hne)
    have hlt := htie 0 (le_refl 0) h0lt
    rw [hc0, hzero] at hlt
    exact absurd hlt (lt_irrefl 0)
  rw [heq]
  exact ⟨hbest0, by rw [hzero]⟩

theorem claim_C6_w :
    (find_optimal_initial_stock [((0:ℤ), (2:ℚ)), (1, -2)] 5).1 = 0 ∧
    (find_optimal_initial_stock [((0:ℤ), (2:ℚ)), (1, -2)] 5).2.2 = some 0 :=
  claim_C6_amended [((0:ℤ), (2:ℚ)), (1, -2)] 5 (by norm_num) (by norm_num)
    (by norm_num [calculate_stock_for_initial_value, hoursOf, calcAux, demandAt, stockStep])

/-- Claim C7: on an empty demand sequence the simulator returns an empty
trajectory and truncation 0, and an empty (day, station) group is
skipped by `create_stock_csv`'s loop (no output rows, no error),
whatever the capacity lookup returns. -/
theorem claim_C7 : ∀ (initial capacity : ℚ) (capacity? : Option ℚ),
    calculate_stock_for_initial_value [] initial capacity = ([], 0) ∧
    groupContribution [] capacity? = Except.ok [] :=
  fun _ _ _ => ⟨rfl, rfl⟩

/-- Claim C8: the optimizer is deterministic — two runs on the same
demand sequence and capacity return identical triples. -/
theorem claim_C8 : ∀ (records : List Record) (capacity : ℚ),
    find_optimal_initial_stock records capacity
      = find_optimal_initial_stock records capacity :=
  fun _ _ => rfl

/-- Claim C9: for every capacity below 0 with `int(capacity) + 1 ≤ 0`,
the optimizer's scan range is empty, so it returns
`best_initial_stock = 0`, no trajectory (`None`), and `min_truncation`
still at `float(inf)` (modelled by `none`); a non-empty group with
such a capacity then reaches the caller's per-hour iteration over
`None`, raising instead of being rejected at the boundary. -/
theorem claim_C9 (records : List Record) (capacity : ℚ)
    (hneg : capacity < 0) (hint : pyInt capacity + 1 ≤ 0) :
    find_optimal_initial_stock records capacity = (0, none, none) ∧
    (records ≠ [] →
      groupContribution records (some capacity) = Except.error attrErrorMsg) := by
  have hempty : candidateList capacity = [] := by
    have h1 : (pyInt capacity + 1).toNat = 0 := by omega
    rw [candidateList, h1]
    rfl
  have hfo : find_optimal_initial_stock records capacity = (0, none, none) := by
    rw [find_optimal_initial_stock, hempty]
    rfl
  refine ⟨hfo, fun hne => ?_⟩
  cases records with
  | nil => exact absurd rfl hne
  | cons a l =>
    simp only [groupContribution, List.isEmpty_cons, Bool.false_eq_true, if_false, hfo]

theorem claim_C9_w :
    find_optimal_initial_stock [((0:ℤ), (1:ℚ))] (-2) = (0, none, none) ∧
    groupContribution [((0:ℤ), (1:ℚ))] (some (-2)) = Except.error attrErrorMsg := by
  have h := claim_C9 [((0:ℤ), (1:ℚ))] (-2) (by norm_num) (by norm_num [pyInt])
  exact ⟨h.1, h.2 (List.cons_ne_nil _ _)⟩

/-- Claim C3 counterexample: with demands -5 then -5, initial stock 0
and capacity 10, the code's truncation total is 10 (each hour's deficit
is measured from the CLAMPED stock), while the spec's formula over the
unclamped trajectory (-5, then -10) gives 5 + 10 = 15. -/
theorem claim_C3_cex :
    (calculate_stock_for_initial_value [((0:ℤ), (-5:ℚ)), (1, -5)] 0 10).2 = 10 ∧
    spec_total_truncation [((0:ℤ), (-5:ℚ)), (1, -5)] 0 10 = 15 ∧
    (10 : ℚ) ≠ 15 := by
  refine ⟨?_, ?_, by norm_num⟩
  · norm_num [calculate_stock_for_initial_value, hoursOf, calcAux, demandAt, stockStep]
  · norm_num [spec_total_truncation, unclampedVals, hoursOf, demandAt, max_def]

/-- Claim C3 (amended): for a non-negative capacity, the returned
`total_truncation` equals the sum over hours of
`max 0 (-u) + max 0 (u - capacity)`, where `u` is each hour's pre-clamp
value propagated WITH clamping applied between hours (each hour's `u` is
the previous CLAMPED stock plus the hour's demand). -/
theorem claim_C3_amended (records : List Record) (initial capacity : ℚ)
    (hc : 0 ≤ capacity) :
    (calculate_stock_for_initial_value records initial capacity).2 =
      clampedTruncSum records capacity (hoursOf records) initial :=
  calcAux_eq_clampedTruncSum records capacity hc (hoursOf records) initial

theorem claim_C3_w :
    (calculate_stock_for_initial_value [((0:ℤ), (-5:ℚ)), (1, -5)] 0 10).2 =
      clampedTruncSum [((0:ℤ), (-5:ℚ)), (1, -5)] 10
        (hoursOf [((0:ℤ), (-5:ℚ)), (1, -5)]) 0 :=
  claim_C3_amended [((0:ℤ), (-5:ℚ)), (1, -5)] 0 10 (by norm_num)

/-! ### Facts about duplicate-hour records (claim C10) -/

theorem find?_filter_key (hkey k : ℤ) (hne : hkey ≠ k) :
    ∀ l : List Record,
      (l.filter (fun s => s.1 ≠ k)).find? (fun r => r.1 == hkey)
        = l.find? (fun r => r.1 == hkey)
  | [] => rfl
  | r :: rs => by
    rw [List.filter_cons]
    by_cases hr : r.1 = k
    · rw [if_neg (by simp [hr])]
      rw [find?_filter_key hkey k hne rs]
      rw [List.find?_cons_of_neg _ (by simp [hr]; exact fun h => hne (h ▸ rfl))]
    · rw [if_pos (by simp [hr])]
      by_cases hh : r.1 = hkey
      · rw [List.find?_cons_of_pos _ (by simp [hh]),
          List.find?_cons_of_pos _ (by simp [hh])]
      · rw [List.find?_cons_of_neg _ (by simp [hh]),
          List.find?_cons_of_neg _ (by simp [hh])]
        exact find?_filter_key hkey k hne rs

theorem find?_firstPerHour (hkey : ℤ) :
    ∀ l : List Record,
      (firstPerHour l).find? (fun r => r.1 == hkey)
        = l.find? (fun r => r.1 == hkey)
  | [] => by rw [firstPerHour]
  | r :: rs => by
    rw [firstPerHour]
    by_cases hh : r.1 = hkey
    · rw [List.find?_cons_of_pos _ (by simp [hh]),
        List.find?_cons_of_pos _ (by simp [hh])]
    · rw [List.find?_cons_of_neg _ (by simp [hh]),
        List.find?_cons_of_neg _ (by simp [hh])]
      rw [find?_firstPerHour hkey (rs.filter (fun s => s.1 ≠ r.1))]
      exact find?_filter_key hkey r.1 (fun h => hh h.symm) rs
termination_by l => l.length
decreasing_by
  simp only [List.length_cons]
  exact Nat.lt_succ_of_le (List.length_filter_le _ _)

theorem demandAt_firstPerHour (l : List Record) (h : ℤ) :
    demandAt (firstPerHour l) h = demandAt l h := by
  rw [demandAt, demandAt, find?_firstPerHour]

theorem mem_map_fst_firstPerHour (x : ℤ) :
    ∀ l : List Record,
      (x ∈ (firstPerHour l).map Prod.fst ↔ x ∈ l.map Prod.fst)
  | [] => by rw [firstPerHour]
  | r :: rs => by
    rw [firstPerHour]
    simp only [List.map_cons, List.mem_cons]
    rw [mem_map_fst_firstPerHour x (rs.filter (fun s => s.1 ≠ r.1))]
    constructor
    · rintro (h | h)
      · exact Or.inl h
      · rcases List.mem_map.1 h with ⟨s, hs, rfl⟩
        exact Or.inr (List.mem_map.2 ⟨s, (List.mem_filter.1 hs).1, rfl⟩)
    · rintro (h | h)
      · exact Or.inl h
      · by_cases hx : x = r.1
        · exact Or.inl hx
        · rcases List.mem_map.1 h with ⟨s, hs, rfl⟩
          refine Or.inr (List.mem_map.2 ⟨s, List.mem_filter.2 ⟨hs, ?_⟩, rfl⟩)
          simpa using hx
termination_by l => l.length
decreasing_by
  simp only [List.length_cons]
  exact Nat.lt_succ_of_le (List.length_filter_le _ _)

theorem nodup_map_fst_firstPerHour :
    ∀ l : List Record, ((firstPerHour l).map Prod.fst).Nodup
  | [] => by rw [firstPerHour]; exact List.nodup_nil
  | r :: rs => by
    rw [firstPerHour]
    simp only [List.map_cons, List.nodup_cons]
    refine ⟨?_, nodup_map_fst_firstPerHour (rs.filter (fun s => s.1 ≠ r.1))⟩
    intro hmem
    rw [mem_map_fst_firstPerHour] at hmem
    rcases List.mem_map.1 hmem with ⟨s, hs, heq⟩
    have hne := (List.mem_filter.1 hs).2
    simp at hne
    exact hne heq
termination_by l => l.length
decreasing_by
  simp only [List.length_cons]
  exact Nat.lt_succ_of_le (List.length_filter_le _ _)

theorem insertionSort_congr_perm {l₁ l₂ : List ℤ} (h : l₁.Perm l₂) :
    List.insertionSort (· ≤ ·) l₁ = List.insertionSort (· ≤ ·) l₂ :=
  List.eq_of_perm_of_sorted
    ((List.perm_insertionSort _ _).trans (h.trans (List.perm_insertionSort _ _).symm))
    (List.sorted_insertionSort _ _) (List.sorted_insertionSort _ _)

theorem hoursOf_firstPerHour (l : List Record) :
    hoursOf (firstPerHour l) = hoursOf l := by
  rw [hoursOf, hoursOf,
    List.dedup_eq_self.2 (nodup_map_fst_firstPerHour l)]
  apply insertionSort_congr_perm
  rw [List.perm_ext_iff_of_nodup (nodup_map_fst_firstPerHour l) (List.nodup_dedup _)]
  intro a
  rw [mem_map_fst_firstPerHour, List.mem_dedup]

theorem hoursOf_of_perm {l₁ l₂ : List Record} (h : l₁.Perm l₂) :
    hoursOf l₁ = hoursOf l₂ :=
  insertionSort_congr_perm ((h.map Prod.fst).dedup)

/-- Claim C10: with duplicate hour values in the input, the simulator
produces one trajectory entry per DISTINCT hour, in ascending sorted
order, and reads only the first matching record's demand for each hour:
dropping every later duplicate record leaves the result unchanged, and
the hour list is invariant under permutations of the input records. -/
theorem claim_C10 (records : List Record) (initial capacity : ℚ) :
    calculate_stock_for_initial_value (firstPerHour records) initial capacity
      = calculate_stock_for_initial_value records initial capacity ∧
    ((calculate_stock_for_initial_value records initial capacity).1).map Prod.fst
      = hoursOf records ∧
    List.Sorted (· < ·) (hoursOf records) ∧
    (∀ records' : List Record, records'.Perm records →
      hoursOf records' = hoursOf records) := by
  refine ⟨?_, calcAux_map_fst records capacity (hoursOf records) initial,
    hoursOf_sorted_lt records, fun _ h => hoursOf_of_perm h⟩
  rw [calculate_stock_for_initial_value, calculate_stock_for_initial_value,
    hoursOf_firstPerHour]
  exact calcAux_congr (firstPerHour records) records capacity
    (fun h => demandAt_firstPerHour records h) (hoursOf records) initial

theorem claim_C10_w :
    calculate_stock_for_initial_value
        (firstPerHour [((2:ℤ), (1:ℚ)), (0, 3), (2, 99), (1, -6)]) 2 4
      = calculate_stock_for_initial_value [((2:ℤ), (1:ℚ)), (0, 3), (2, 99), (1, -6)] 2 4 ∧
    hoursOf [((0:ℤ), (3:ℚ)), (2, 1), (2, 99), (1, -6)]
      = hoursOf [((2:ℤ), (1:ℚ)), (0, 3), (2, 99), (1, -6)] :=
  ⟨(claim_C10 [((2:ℤ), (1:ℚ)), (0, 3), (2, 99), (1, -6)] 2 4).1,
   (claim_C10 [((2:ℤ), (1:ℚ)), (0, 3), (2, 99), (1, -6)] 2 4).2.2.2
     [((0:ℤ), (3:ℚ)), (2, 1), (2, 99), (1, -6)] (by decide)⟩

end BlueBike
